import Mathlib

/-!
Shallow embedding of the nom-bencode decoder (`src/lib.rs`, `src/errors.rs`).

A byte is a natural number and an input buffer is a list of bytes.  The nom 7
combinators used by the source (`char`, `digit1`, `take`, `eof`, `alt`,
`pair`, `delimited`, `preceded`, `many_till`, `many0`) are embedded directly
into the body of each decoder, following nom's semantics: a parser returns
either the remaining input together with a value, or an error which is
recoverable (`Error`, lets `alt`/`many0`/`many_till` move on) or fatal
(`Failure`, aborts the whole decode).  A result of `none` models a Rust
panic; the only panic sites in the source are the two `from_utf8` `expect`
calls and the `unreachable` branch of `parse_dict`, and each is embedded as
an explicit `none` branch guarded by the exact condition the source relies
on (`from_utf8` succeeds on any all-ASCII byte run, so its guard is that
every byte is below 128).
-/

abbrev Input := List Nat

/-- The nom `ErrorKind` values reachable in this embedding. -/
inductive ErrorKind where
  | Char
  | Digit
  | Eof
  | ManyTill
  | Many0
  deriving DecidableEq, Repr

/-- The error enum `BencodeError` from `src/errors.rs`.  The Rust `ParseIntError` payload
carried by the `ParseIntError` variant is not observable beyond its
presence, so only the input position is kept. -/
inductive BencodeError where
  | Nom (input : Input) (kind : ErrorKind)
  | InvalidInteger (input : Input)
  | InvalidBytesLength (input : Input)
  | ParseIntError (input : Input)
  deriving DecidableEq, Repr

/-- The wrapper `nom::Err`: a recoverable `Error` or a fatal `Failure`.  The `From`
impl in `src/errors.rs` maps every non-`Nom` `BencodeError` raised through
`?` to `Failure`, and `Nom` errors to `Error`. -/
inductive NomErr where
  | Error (e : BencodeError)
  | Failure (e : BencodeError)
  deriving DecidableEq, Repr

/-- The bencode `Value` enum.  A Rust `HashMap` only exposes key lookup, so
`Dictionary` keeps the key/value pairs in encounter order (duplicates
included) and lookup (`dictGet` below) returns the latest matching pair,
which is exactly the observable behaviour of collecting an iterator of
pairs into a `HashMap`. -/
inductive Value where
  | Bytes (data : Input)
  | Integer (value : Int)
  | List (items : List Value)
  | Dictionary (entries : List (Input × Value))

/-- Lookup in a decoded dictionary: the value of the last pair whose key
matches, i.e. `HashMap::get` after collecting the pairs in order. -/
def dictGet (entries : List (Input × Value)) (key : Input) : Option Value :=
  match entries with
  | [] => none
  | (k, v) :: rest =>
    match dictGet rest key with
    | some r => some r
    | none => if k = key then some v else none

/-- ASCII decimal digit test (`u8::is_dec_digit`). -/
def isDigit (b : Nat) : Bool := decide (48 ≤ b) && decide (b ≤ 57)

/-- nom `character::complete::char(c)`: consumes one byte equal to `c`,
otherwise a recoverable error of kind `Char` (also on empty input). -/
def pchar (c : Nat) (inp : Input) : Except NomErr (Input × Nat) :=
  match inp with
  | [] => .error (.Error (.Nom [] .Char))
  | b :: rest =>
    if b = c then .ok (rest, c) else .error (.Error (.Nom (b :: rest) .Char))

/-- nom `character::complete::digit1`: the longest nonempty prefix of ASCII
digits, or a recoverable error of kind `Digit`. -/
def digit1 (inp : Input) : Except NomErr (Input × Input) :=
  let ds := inp.takeWhile isDigit
  if ds.isEmpty then .error (.Error (.Nom inp .Digit))
  else .ok (inp.dropWhile isDigit, ds)

/-- nom `bytes::complete::take(n)`: exactly `n` bytes, or a recoverable
error of kind `Eof` when fewer remain. -/
def ptake (n : Nat) (inp : Input) : Except NomErr (Input × Input) :=
  if inp.length < n then .error (.Error (.Nom inp .Eof))
  else .ok (inp.drop n, inp.take n)

/-- nom `combinator::eof`: succeeds exactly on empty input. -/
def peof (inp : Input) : Except NomErr (Input × Input) :=
  if inp.isEmpty then .ok (inp, inp)
  else .error (.Error (.Nom inp .Eof))

def i64Min : Int := -9223372036854775808
def i64Max : Int := 9223372036854775807
def u64Size : Nat := 18446744073709551616

/-- Numeric value of an ASCII digit run (most significant digit first). -/
def digitsVal (ds : Input) : Nat := ds.foldl (fun a b => a * 10 + (b - 48)) 0

/-- Rust `str::parse::<i64>` on an ASCII byte run: an optional `+` or `-`
sign, then one or more decimal digits, with the value required to fit in
the signed 64-bit range (Rust reports overflow as a `ParseIntError`, which
is `none` here). -/
def rustParseI64 (s : Input) : Option Int :=
  let sgn : Int := if s.head? = some 45 then -1 else 1
  let ds : Input := if s.head? = some 43 ∨ s.head? = some 45 then s.tail else s
  if ds.isEmpty || !(ds.all isDigit) then none
  else
    let v : Int := sgn * (digitsVal ds : Int)
    if i64Min ≤ v ∧ v ≤ i64Max then some v else none

/-- Rust `str::parse::<u64>` on an ASCII byte run: one or more decimal
digits whose value fits in 64 unsigned bits (no sign is ever present at
the call site, but Rust would accept a `+`; the embedding keeps the digit
case only, which is the case `parse_bytes` can reach since the run comes
from `digit1`). -/
def rustParseU64 (s : Input) : Option Nat :=
  if s.isEmpty || !(s.all isDigit) then none
  else if digitsVal s < u64Size then some (digitsVal s) else none

/-- The result of one decoder: `none` is a panic, otherwise remaining
input and value, or a nom error. -/
abbrev PRes := Option (Except NomErr (Input × Value))

/-- The integer content recognizer:
`alt((recognize(pair(char('+'), digit1)), recognize(pair(char('-'), digit1)), digit1))`.
`alt` tries each branch on a recoverable error; with this error type the
error of the last branch is what surfaces (`BencodeError::append` returns
its accumulated argument unchanged). -/
def signedDigits (sign : Nat) (inp : Input) : Except NomErr (Input × Input) :=
  match pchar sign inp with
  | .error e => .error e
  | .ok (i1, _) =>
    match digit1 i1 with
    | .error e => .error e
    | .ok (i2, ds) => .ok (i2, sign :: ds)

def intBody (inp : Input) : Except NomErr (Input × Input) :=
  match signedDigits 43 inp with
  | .ok r => .ok r
  | .error (.Failure e) => .error (.Failure e)
  | .error (.Error _) =>
    match signedDigits 45 inp with
    | .ok r => .ok r
    | .error (.Failure e) => .error (.Failure e)
    | .error (.Error _) => digit1 inp

/-- The canonical-form rejection of `parse_integer`:
`value_str.starts_with("-0") || (value_str.starts_with('0') && value_str.len() > 1)`. -/
def violatesCanon (value : Input) : Bool :=
  decide (value.take 2 = [45, 48]) ||
    (decide (value.head? = some 48) && decide (2 ≤ value.length))

/-- The decoder `Value::parse_integer`: `delimited(char('i'), intBody, char('e'))`, the
`from_utf8` expect, the canonical-form check (an explicit `Failure`), then
`str::parse::<i64>` whose error becomes `ParseIntError` (a `Failure` via
the `From` impl). -/
def parse_integer (start_inp : Input) : PRes :=
  match pchar 105 start_inp with
  | .error e => some (.error e)
  | .ok (i0, _) =>
    match intBody i0 with
    | .error e => some (.error e)
    | .ok (i1, value) =>
      match pchar 101 i1 with
      | .error e => some (.error e)
      | .ok (inp, _) =>
        if value.all (fun b => decide (b < 128)) then
          if violatesCanon value then
            some (.error (.Failure (.InvalidInteger start_inp)))
          else
            match rustParseI64 value with
            | some v => some (.ok (inp, .Integer v))
            | none => some (.error (.Failure (.ParseIntError inp)))
        else none

/-- The decoder `Value::parse_bytes`: `digit1`, `char(':')`, the `from_utf8` expect,
`str::parse::<u64>` (`ParseIntError` on overflow, a `Failure`), the
explicit zero-length `Failure`, then `take(length)`. -/
def parse_bytes (start_inp : Input) : PRes :=
  match digit1 start_inp with
  | .error e => some (.error e)
  | .ok (i1, length_digits) =>
    match pchar 58 i1 with
    | .error e => some (.error e)
    | .ok (inp, _) =>
      if length_digits.all (fun b => decide (b < 128)) then
        match rustParseU64 length_digits with
        | none => some (.error (.Failure (.ParseIntError inp)))
        | some length =>
          if length = 0 then
            some (.error (.Failure (.InvalidBytesLength start_inp)))
          else
            match ptake length inp with
            | .error e => some (.error e)
            | .ok (inp2, characters) => some (.ok (inp2, .Bytes characters))
      else none


theorem dropWhile_length_lt_of_takeWhile_ne_nil {p : Nat → Bool} {l : Input}
    (h : l.takeWhile p ≠ []) : (l.dropWhile p).length < l.length := by
  cases l with
  | nil => simp at h
  | cons a t =>
    by_cases hp : p a
    · rw [List.dropWhile_cons_of_pos hp]
      exact Nat.lt_succ_of_le (List.dropWhile_sublist p).length_le
    · rw [List.takeWhile_cons_of_neg hp] at h
      exact absurd rfl h

theorem pchar_ok {c : Nat} {inp i1 : Input} {b : Nat}
    (h : pchar c inp = .ok (i1, b)) : inp = c :: i1 := by
  cases inp with
  | nil => simp [pchar] at h
  | cons x t =>
    simp only [pchar] at h
    split at h
    · simp only [Except.ok.injEq, Prod.mk.injEq] at h
      simp_all
    · simp at h

theorem digit1_ok {inp i1 ds : Input} (h : digit1 inp = .ok (i1, ds)) :
    ds = inp.takeWhile isDigit ∧ i1 = inp.dropWhile isDigit ∧ ds ≠ [] := by
  simp only [digit1] at h
  split at h
  · simp at h
  · rename_i hne
    simp only [Except.ok.injEq, Prod.mk.injEq] at h
    obtain ⟨h1, h2⟩ := h
    subst h1; subst h2
    exact ⟨rfl, rfl, by simpa [List.isEmpty_iff] using hne⟩

theorem digit1_consumes {inp i1 ds : Input} (h : digit1 inp = .ok (i1, ds)) :
    i1.length < inp.length := by
  obtain ⟨-, h2, h3⟩ := digit1_ok h
  subst h2
  exact dropWhile_length_lt_of_takeWhile_ne_nil (by
    obtain ⟨h1, -⟩ := digit1_ok h
    exact h1 ▸ h3)

theorem ptake_ok {n : Nat} {inp i1 bs : Input} (h : ptake n inp = .ok (i1, bs)) :
    i1 = inp.drop n ∧ bs = inp.take n ∧ n ≤ inp.length := by
  simp only [ptake] at h
  split at h
  · simp at h
  · rename_i hn
    simp only [Except.ok.injEq, Prod.mk.injEq] at h
    exact ⟨h.1.symm, h.2.symm, by omega⟩

theorem parse_bytes_consumes {inp i2 : Input} {v : Value}
    (h : parse_bytes inp = some (.ok (i2, v))) : i2.length < inp.length := by
  simp only [parse_bytes] at h
  split at h
  · simp at h
  · rename_i i1 L hdig
    split at h
    · simp at h
    · rename_i iC b hcolon
      split at h
      · split at h
        · simp at h
        · rename_i len hu
          split at h
          · simp at h
          · split at h
            · simp at h
            · rename_i iT chars htake
              simp only [Option.some.injEq, Except.ok.injEq, Prod.mk.injEq] at h
              obtain ⟨h1, -⟩ := h
              subst h1
              have hd := digit1_consumes hdig
              have hc := pchar_ok hcolon
              have ht := (ptake_ok htake).1
              subst ht
              have : iC.length < i1.length := by rw [hc]; simp
              have := iC.length_drop len
              omega
      · simp at h

theorem parse_bytes_ok_shape {inp i2 : Input} {v : Value}
    (h : parse_bytes inp = some (.ok (i2, v))) : ∃ bs, v = .Bytes bs := by
  simp only [parse_bytes] at h
  split at h
  · simp at h
  · split at h
    · simp at h
    · split at h
      · split at h
        · simp at h
        · split at h
          · simp at h
          · split at h
            · simp at h
            · simp only [Option.some.injEq, Except.ok.injEq, Prod.mk.injEq] at h
              exact ⟨_, h.2.symm⟩
      · simp at h

/-- The key extraction of `parse_dict`: the first component of every pair
is produced by `parse_bytes`, so it is always `Bytes`; any other shape is
the `unreachable` branch, i.e. a panic (`none`). -/
def toEntry (p : Value × Value) : Option (Input × Value) :=
  match p.1 with
  | .Bytes key => some (key, p.2)
  | _ => none

def toEntries (prs : List (Value × Value)) : Option (List (Input × Value)) :=
  match prs with
  | [] => some []
  | p :: rest =>
    match toEntry p, toEntries rest with
    | some e, some es => some (e :: es)
    | _, _ => none

mutual

/-- The value alternation
`alt((Value::parse_bytes, Value::parse_integer, Value::parse_list, Value::parse_dict))`
shared by `parse_list`, `parse_dict` and `parse`: `alt` moves to the next
branch on a recoverable `Error`, aborts on a `Failure`, and when every
branch fails it surfaces the last branch's error (`BencodeError::append`
returns its non-kind argument unchanged, so the `ErrorKind::Alt` wrapper is
the identity here). -/
def parseValue (inp : Input) : PRes :=
  match parse_bytes inp with
  | none => none
  | some (.ok r) => some (.ok r)
  | some (.error (.Failure e)) => some (.error (.Failure e))
  | some (.error (.Error _)) =>
    match parse_integer inp with
    | none => none
    | some (.ok r) => some (.ok r)
    | some (.error (.Failure e)) => some (.error (.Failure e))
    | some (.error (.Error _)) =>
      match parse_list inp with
      | none => none
      | some (.ok r) => some (.ok r)
      | some (.error (.Failure e)) => some (.error (.Failure e))
      | some (.error (.Error _)) => parse_dict inp
termination_by (inp.length, 1)

/-- The decoder `Value::parse_list`: `preceded(char('l'), many_till(alt(...), char('e')))`. -/
def parse_list (start_inp : Input) : PRes :=
  match hc : pchar 108 start_inp with
  | .error e => some (.error e)
  | .ok (i1, _) =>
    match listLoop i1 with
    | none => none
    | some (.error e) => some (.error e)
    | some (.ok (inp, items)) => some (.ok (inp, .List items))
termination_by (start_inp.length, 0)
decreasing_by
  have h := pchar_ok hc
  subst h
  decreasing_tactic

/-- The `many_till(alt(...), char('e'))` loop of `parse_list`: first try the
terminator, then one element; on the element's recoverable error the loop
fails with that error (`append` with `ErrorKind::ManyTill` is the identity
here).  nom's infinite-loop check rejects an element parse that consumed
nothing; every parser here returns a suffix of its input, so "consumed
nothing" is exactly "did not get shorter". -/
def listLoop (i : Input) : Option (Except NomErr (Input × List Value)) :=
  match pchar 101 i with
  | .ok (i1, _) => some (.ok (i1, []))
  | .error (.Failure e) => some (.error (.Failure e))
  | .error (.Error _) =>
    match parseValue i with
    | none => none
    | some (.error (.Error err)) => some (.error (.Error err))
    | some (.error (.Failure e)) => some (.error (.Failure e))
    | some (.ok (i1, v)) =>
      if h1 : i1.length < i.length then
        match listLoop i1 with
        | none => none
        | some (.error e) => some (.error e)
        | some (.ok (i2, rest)) => some (.ok (i2, v :: rest))
      else some (.error (.Error (.Nom i .ManyTill)))
termination_by (i.length, 2)

/-- The decoder `Value::parse_dict`: `preceded(char('d'), many_till(pair(parse_bytes, alt(...)), char('e')))`,
then the key extraction whose non-`Bytes` case is `unreachable`. -/
def parse_dict (start_inp : Input) : PRes :=
  match hc : pchar 100 start_inp with
  | .error e => some (.error e)
  | .ok (i1, _) =>
    match dictLoop i1 with
    | none => none
    | some (.error e) => some (.error e)
    | some (.ok (inp, prs)) =>
      match toEntries prs with
      | some entries => some (.ok (inp, .Dictionary entries))
      | none => none
termination_by (start_inp.length, 0)
decreasing_by
  have h := pchar_ok hc
  subst h
  decreasing_tactic

/-- The `many_till(pair(...), char('e'))` loop of `parse_dict`, with the
same structure as `listLoop`. -/
def dictLoop (i : Input) : Option (Except NomErr (Input × List (Value × Value))) :=
  match pchar 101 i with
  | .ok (i1, _) => some (.ok (i1, []))
  | .error (.Failure e) => some (.error (.Failure e))
  | .error (.Error _) =>
    match dictPair i with
    | none => none
    | some (.error (.Error err)) => some (.error (.Error err))
    | some (.error (.Failure e)) => some (.error (.Failure e))
    | some (.ok (i1, p)) =>
      if h1 : i1.length < i.length then
        match dictLoop i1 with
        | none => none
        | some (.error e) => some (.error e)
        | some (.ok (i2, rest)) => some (.ok (i2, p :: rest))
      else some (.error (.Error (.Nom i .ManyTill)))
termination_by (i.length, 3)

/-- One dictionary key/value pair: `pair(Value::parse_bytes, alt(...))`. -/
def dictPair (i : Input) : Option (Except NomErr (Input × (Value × Value))) :=
  match hb : parse_bytes i with
  | none => none
  | some (.error e) => some (.error e)
  | some (.ok (i1, k)) =>
    match parseValue i1 with
    | none => none
    | some (.error e) => some (.error e)
    | some (.ok (i2, v)) => some (.ok (i2, (k, v)))
termination_by (i.length, 2)
decreasing_by
  have h := parse_bytes_consumes hb
  decreasing_tactic

end

/-- The `many0(alt(...))` loop of the top-level `parse`: collect values
until a recoverable error, with nom's infinite-loop check on an element
parse that consumed nothing (as in `many_till`, "consumed nothing" is "did
not get shorter" since every parser returns a suffix of its input). -/
def parseLoop (i : Input) : Option (Except NomErr (Input × List Value)) :=
  match parseValue i with
  | none => none
  | some (.error (.Error _)) => some (.ok (i, []))
  | some (.error (.Failure e)) => some (.error (.Failure e))
  | some (.ok (i1, v)) =>
    if h1 : i1.length < i.length then
      match parseLoop i1 with
      | none => none
      | some (.error e) => some (.error e)
      | some (.ok (i2, rest)) => some (.ok (i2, v :: rest))
    else some (.error (.Error (.Nom i .Many0)))
termination_by i.length

/-- The public entry point `parse`: `many0(alt(...))` followed by `eof`,
returning only the collected values. -/
def parse (source : Input) : Option (Except NomErr (List Value)) :=
  match parseLoop source with
  | none => none
  | some (.error e) => some (.error e)
  | some (.ok (source2, items)) =>
    match peof source2 with
    | .error e => some (.error e)
    | .ok _ => some (.ok items)


/-- A nonempty run of ASCII digits. -/
def IsDigitRun (L : Input) : Prop := L ≠ [] ∧ L.all isDigit = true

/-- A canonical digit run: nonempty, all digits, and a leading zero only
as the single run consisting of the digit zero. -/
def IsCanonDigits (ds : Input) : Prop :=
  ds ≠ [] ∧ ds.all isDigit = true ∧ (ds.head? = some 48 → ds = [48])

mutual

/-- Spec-side relation, written from the spec's words and not from the
source: the wire grammar of spec §6 together with the validity rules of
spec §4 (integers canonical and within the signed 64-bit range, byte-string
lengths at least 1 that fit in 64 unsigned bits, with no leading-zero
restriction on the length digits), relating one value to one encoding.
Claims about well-formed input compare the decoder against it. -/
inductive SpecEncodes : Value → Input → Prop
  | bytes (L data : Input) (hL : IsDigitRun L) (hval : digitsVal L = data.length)
      (h1 : 1 ≤ data.length) (hbound : digitsVal L < u64Size) :
      SpecEncodes (.Bytes data) (L ++ 58 :: data)
  | int_nonneg (ds : Input) (hds : IsCanonDigits ds)
      (hmax : (digitsVal ds : Int) ≤ i64Max) :
      SpecEncodes (.Integer (digitsVal ds)) (105 :: ds ++ [101])
  | int_neg (ds : Input) (hds : IsCanonDigits ds) (hpos : digitsVal ds ≠ 0)
      (hmin : i64Min ≤ -(digitsVal ds : Int)) :
      SpecEncodes (.Integer (-(digitsVal ds : Int))) (105 :: 45 :: (ds ++ [101]))
  | list (vs : List Value) (b : Input) (h : SpecEncodesSeq vs b) :
      SpecEncodes (.List vs) (108 :: (b ++ [101]))
  | dict (ps : List (Input × Value)) (b : Input) (h : SpecEncodesPairs ps b) :
      SpecEncodes (.Dictionary ps) (100 :: (b ++ [101]))

/-- Spec-side: a buffer that is the concatenation of the encodings of a
sequence of values (spec §6 `top_level := value*`, also a list body). -/
inductive SpecEncodesSeq : List Value → Input → Prop
  | nil : SpecEncodesSeq [] []
  | cons (v : Value) (vs : List Value) (b1 b2 : Input) :
      SpecEncodes v b1 → SpecEncodesSeq vs b2 → SpecEncodesSeq (v :: vs) (b1 ++ b2)

/-- Spec-side: a dictionary body, `(byte_string value)*`, keys nonempty
byte strings, in encounter order with duplicates allowed. -/
inductive SpecEncodesPairs : List (Input × Value) → Input → Prop
  | nil : SpecEncodesPairs [] []
  | cons (k : Input) (v : Value) (ps : List (Input × Value)) (bk bv b : Input) :
      SpecEncodes (.Bytes k) bk → SpecEncodes v bv → SpecEncodesPairs ps b →
      SpecEncodesPairs ((k, v) :: ps) (bk ++ (bv ++ b))

end

theorem digit_bounds {b : Nat} (hb : isDigit b = true) : 48 ≤ b ∧ b ≤ 57 := by
  simpa [isDigit] using hb

theorem digitRun_all_lt_128 {L : Input} (h : L.all isDigit = true) :
    L.all (fun b => decide (b < 128)) = true := by
  simp only [List.all_eq_true] at h ⊢
  intro a ha
  obtain ⟨h2, h3⟩ := digit_bounds (h a ha)
  simp only [decide_eq_true_eq]
  omega

theorem digit1_run {L : Input} {x : Nat} (hL : IsDigitRun L) (hx : isDigit x = false)
    (rest : Input) : digit1 (L ++ x :: rest) = .ok (x :: rest, L) := by
  obtain ⟨hne, hall⟩ := hL
  have hmem : ∀ a ∈ L, isDigit a = true := by simpa [List.all_eq_true] using hall
  have ht : (L ++ x :: rest).takeWhile isDigit = L := by
    rw [List.takeWhile_append_of_pos hmem, List.takeWhile_cons_of_neg (by simp [hx])]
    simp
  have hd : (L ++ x :: rest).dropWhile isDigit = x :: rest := by
    rw [List.dropWhile_append_of_pos hmem, List.dropWhile_cons_of_neg (by simp [hx])]
  simp [digit1, ht, hd, hne]

theorem rustParseU64_run {L : Input} (hL : IsDigitRun L) (hb : digitsVal L < u64Size) :
    rustParseU64 L = some (digitsVal L) := by
  obtain ⟨hne, hall⟩ := hL
  simp [rustParseU64, hne, hall, hb]

theorem parse_bytes_encoded {data bk : Input} (h : SpecEncodes (.Bytes data) bk)
    (r : Input) : parse_bytes (bk ++ r) = some (.ok (r, .Bytes data)) := by
  cases h with
  | bytes L _ hL hval h1 hbound =>
    have hassoc : (L ++ 58 :: data) ++ r = L ++ 58 :: (data ++ r) := by simp
    have hd1 : digit1 (L ++ 58 :: (data ++ r)) = .ok (58 :: (data ++ r), L) :=
      digit1_run hL (by decide) _
    have hall128 := digitRun_all_lt_128 hL.2
    have hu64 := rustParseU64_run hL hbound
    have hlen0 : digitsVal L ≠ 0 := by omega
    have htake : ptake (digitsVal L) (data ++ r) = .ok (r, data) := by
      simp only [ptake, hval]
      rw [if_neg (by simp only [List.length_append]; omega)]
      rw [List.drop_left, List.take_left]
    simp [parse_bytes, hassoc, hd1, pchar, hall128, hu64, hlen0, htake]

theorem canon_not_violates {ds : Input} (h : IsCanonDigits ds) :
    violatesCanon ds = false := by
  obtain ⟨hne, hall, hzero⟩ := h
  cases ds with
  | nil => rfl
  | cons d t =>
    have hd : isDigit d = true := by
      simp only [List.all_cons, Bool.and_eq_true] at hall
      exact hall.1
    obtain ⟨hdb1, hdb2⟩ := digit_bounds hd
    simp only [violatesCanon, List.take_cons, List.head?_cons]
    by_cases h48 : d = 48
    · subst h48
      have := hzero rfl
      have ht : t = [] := by simpa using this
      subst ht
      simp
    · have h45 : d ≠ 45 := by omega
      simp [h45, h48]


theorem canon_pos_head {ds : Input} (h : IsCanonDigits ds) (hpos : digitsVal ds ≠ 0) :
    ds.head? ≠ some 48 := by
  intro hh
  have := h.2.2 hh
  subst this
  exact hpos rfl

theorem intBody_digits {ds : Input} (hds : IsDigitRun ds) {x : Nat}
    (hx : isDigit x = false) (rest : Input) :
    intBody (ds ++ x :: rest) = .ok (x :: rest, ds) := by
  obtain ⟨hne, hall⟩ := hds
  cases ds with
  | nil => exact absurd rfl hne
  | cons d t =>
    have hd : isDigit d = true := by
      simp only [List.all_cons, Bool.and_eq_true] at hall
      exact hall.1
    obtain ⟨hdb1, hdb2⟩ := digit_bounds hd
    have h43 : d ≠ 43 := by omega
    have h45 : d ≠ 45 := by omega
    have hd1 : digit1 (d :: (t ++ x :: rest)) = .ok (x :: rest, d :: t) := by
      simpa using digit1_run (⟨hne, hall⟩ : IsDigitRun (d :: t)) hx rest
    simp [intBody, signedDigits, pchar, h43, h45, hd1]

theorem intBody_neg_digits {ds : Input} (hds : IsDigitRun ds) {x : Nat}
    (hx : isDigit x = false) (rest : Input) :
    intBody (45 :: (ds ++ x :: rest)) = .ok (x :: rest, 45 :: ds) := by
  have hd1 := digit1_run hds hx rest
  simp [intBody, signedDigits, pchar, hd1]

theorem canon_all_lt_128 {ds : Input} (h : IsCanonDigits ds) :
    ds.all (fun b => decide (b < 128)) = true := digitRun_all_lt_128 h.2.1

theorem rustParseI64_digits {ds : Input} (hds : IsDigitRun ds)
    (hmax : (digitsVal ds : Int) ≤ i64Max) :
    rustParseI64 ds = some (digitsVal ds) := by
  obtain ⟨hne, hall⟩ := hds
  cases ds with
  | nil => exact absurd rfl hne
  | cons d t =>
    have hd : isDigit d = true := by
      simp only [List.all_cons, Bool.and_eq_true] at hall
      exact hall.1
    obtain ⟨hdb1, hdb2⟩ := digit_bounds hd
    have h43 : d ≠ 43 := by omega
    have h45 : d ≠ 45 := by omega
    have hmin : i64Min ≤ (digitsVal (d :: t) : Int) := by
      have h0 : (0 : Int) ≤ (digitsVal (d :: t) : Int) := Int.ofNat_nonneg _
      have h0' : i64Min ≤ (0 : Int) := by decide
      omega
    simp [rustParseI64, h43, h45, hall, hmin, hmax]

theorem rustParseI64_neg_digits {ds : Input} (hds : IsDigitRun ds)
    (hmin : i64Min ≤ -(digitsVal ds : Int)) :
    rustParseI64 (45 :: ds) = some (-(digitsVal ds : Int)) := by
  obtain ⟨hne, hall⟩ := hds
  have hmax : -(digitsVal ds : Int) ≤ i64Max := by
    have h0 : (0 : Int) ≤ (digitsVal ds : Int) := Int.ofNat_nonneg _
    have h0' : (0 : Int) ≤ i64Max := by decide
    omega
  simp [rustParseI64, hne, hall, hmin, hmax]

theorem parse_integer_encoded {v : Int} {bi : Input} (h : SpecEncodes (.Integer v) bi)
    (r : Input) : parse_integer (bi ++ r) = some (.ok (r, .Integer v)) := by
  cases h with
  | int_nonneg ds hds hmax =>
    have hrun : IsDigitRun ds := ⟨hds.1, hds.2.1⟩
    have hassoc : (105 :: ds ++ [101]) ++ r = 105 :: (ds ++ 101 :: r) := by simp
    have hbody := intBody_digits hrun (by decide : isDigit 101 = false) r
    have hviol := canon_not_violates hds
    have h128 := canon_all_lt_128 hds
    have hi64 := rustParseI64_digits hrun hmax
    simp [parse_integer, hassoc, pchar, hbody, hviol, h128, hi64]
  | int_neg ds hds hpos hmin =>
    have hrun : IsDigitRun ds := ⟨hds.1, hds.2.1⟩
    have hassoc : (105 :: 45 :: (ds ++ [101])) ++ r = 105 :: 45 :: (ds ++ 101 :: r) := by
      simp
    have hbody := intBody_neg_digits hrun (by decide : isDigit 101 = false) r
    have hviol : violatesCanon (45 :: ds) = false := by
      have hh := canon_pos_head hds hpos
      cases ds with
      | nil => exact absurd rfl hds.1
      | cons d t =>
        have : d ≠ 48 := fun hc => hh (by simp [hc])
        simp [violatesCanon, this]
    have h128 : (45 :: ds).all (fun b => decide (b < 128)) = true := by
      have := canon_all_lt_128 hds
      simp only [List.all_cons, Bool.and_eq_true]
      exact ⟨by simp, this⟩
    have hi64 := rustParseI64_neg_digits hrun hmin
    simp [parse_integer, hassoc, pchar, hbody, hviol, h128, hi64]

theorem parse_bytes_err_head {c : Nat} {t : Input} (hc : isDigit c = false) :
    parse_bytes (c :: t) = some (.error (.Error (.Nom (c :: t) .Digit))) := by
  simp [parse_bytes, digit1, List.takeWhile_cons, hc]

theorem parse_integer_err_head {c : Nat} {t : Input} (hc : c ≠ 105) :
    parse_integer (c :: t) = some (.error (.Error (.Nom (c :: t) .Char))) := by
  simp [parse_integer, pchar, hc]

theorem parse_list_eq (inp : Input) :
    parse_list inp =
      (match pchar 108 inp with
        | .error e => some (.error e)
        | .ok (i1, _) =>
          match listLoop i1 with
          | none => none
          | some (.error e) => some (.error e)
          | some (.ok (inp2, items)) => some (.ok (inp2, .List items))) := by
  rw [parse_list]
  split <;> (rename_i heq; rw [heq])

theorem parse_dict_eq (inp : Input) :
    parse_dict inp =
      (match pchar 100 inp with
        | .error e => some (.error e)
        | .ok (i1, _) =>
          match dictLoop i1 with
          | none => none
          | some (.error e) => some (.error e)
          | some (.ok (inp2, prs)) =>
            match toEntries prs with
            | some entries => some (.ok (inp2, .Dictionary entries))
            | none => none) := by
  rw [parse_dict]
  split <;> (rename_i heq; rw [heq])

theorem dictPair_eq (inp : Input) :
    dictPair inp =
      (match parse_bytes inp with
        | none => none
        | some (.error e) => some (.error e)
        | some (.ok (i1, k)) =>
          match parseValue i1 with
          | none => none
          | some (.error e) => some (.error e)
          | some (.ok (i2, v)) => some (.ok (i2, (k, v)))) := by
  rw [dictPair]
  split <;> (rename_i heq; rw [heq])

theorem parse_list_err_head {c : Nat} {t : Input} (hc : c ≠ 108) :
    parse_list (c :: t) = some (.error (.Error (.Nom (c :: t) .Char))) := by
  simp [parse_list_eq, pchar, hc]

theorem parse_dict_err_head {c : Nat} {t : Input} (hc : c ≠ 100) :
    parse_dict (c :: t) = some (.error (.Error (.Nom (c :: t) .Char))) := by
  simp [parse_dict_eq, pchar, hc]

theorem parseValue_err_head {c : Nat} {t : Input} (h1 : isDigit c = false)
    (h2 : c ≠ 105) (h3 : c ≠ 108) (h4 : c ≠ 100) :
    parseValue (c :: t) = some (.error (.Error (.Nom (c :: t) .Char))) := by
  simp [parseValue, parse_bytes_err_head h1, parse_integer_err_head h2,
    parse_list_err_head h3, parse_dict_err_head h4]

theorem parse_bytes_nil : parse_bytes [] = some (.error (.Error (.Nom [] .Digit))) := rfl

theorem parse_integer_nil : parse_integer [] = some (.error (.Error (.Nom [] .Char))) := rfl

theorem parse_list_nil : parse_list [] = some (.error (.Error (.Nom [] .Char))) := by
  simp [parse_list_eq, pchar]

theorem parse_dict_nil : parse_dict [] = some (.error (.Error (.Nom [] .Char))) := by
  simp [parse_dict_eq, pchar]

theorem parseValue_nil : parseValue [] = some (.error (.Error (.Nom [] .Char))) := by
  simp [parseValue, parse_bytes_nil, parse_integer_nil, parse_list_nil, parse_dict_nil]

theorem parseValue_of_bytes_ok {inp : Input} {r : Input × Value}
    (h : parse_bytes inp = some (.ok r)) : parseValue inp = some (.ok r) := by
  simp [parseValue, h]

theorem parseValue_of_integer_ok {inp : Input} {r : Input × Value}
    (hb : parse_bytes inp = some (.error (.Error (.Nom inp .Digit))))
    (h : parse_integer inp = some (.ok r)) : parseValue inp = some (.ok r) := by
  simp [parseValue, hb, h]

theorem parseValue_of_list_ok {t : Input} {r : Input × Value}
    (h : parse_list (108 :: t) = some (.ok r)) : parseValue (108 :: t) = some (.ok r) := by
  simp [parseValue, parse_bytes_err_head (by decide : isDigit 108 = false),
    parse_integer_err_head (by decide : (108 : Nat) ≠ 105), h]

theorem parseValue_of_dict_ok {t : Input} {r : Input × Value}
    (h : parse_dict (100 :: t) = some (.ok r)) : parseValue (100 :: t) = some (.ok r) := by
  simp [parseValue, parse_bytes_err_head (by decide : isDigit 100 = false),
    parse_integer_err_head (by decide : (100 : Nat) ≠ 105),
    parse_list_err_head (by decide : (100 : Nat) ≠ 108), h]

theorem listLoop_term (r : Input) : listLoop (101 :: r) = some (.ok (r, [])) := by
  simp [listLoop, pchar]

theorem dictLoop_term (r : Input) : dictLoop (101 :: r) = some (.ok (r, [])) := by
  simp [dictLoop, pchar]

theorem listLoop_step {c : Nat} {t i1 : Input} {v : Value} (hc : c ≠ 101)
    (hpv : parseValue (c :: t) = some (.ok (i1, v)))
    (hlt : i1.length < (c :: t).length) :
    listLoop (c :: t) =
      (match listLoop i1 with
        | none => none
        | some (.error e) => some (.error e)
        | some (.ok (i2, rest)) => some (.ok (i2, v :: rest))) := by
  rw [listLoop]
  simp [pchar, hc, hpv, dif_pos hlt]
  intro hge
  exfalso
  simp only [List.length_cons] at hlt
  omega

theorem dictLoop_step {c : Nat} {t i1 : Input} {p : Value × Value} (hc : c ≠ 101)
    (hp : dictPair (c :: t) = some (.ok (i1, p)))
    (hlt : i1.length < (c :: t).length) :
    dictLoop (c :: t) =
      (match dictLoop i1 with
        | none => none
        | some (.error e) => some (.error e)
        | some (.ok (i2, rest)) => some (.ok (i2, p :: rest))) := by
  rw [dictLoop]
  simp [pchar, hc, hp, dif_pos hlt]
  intro hge
  exfalso
  simp only [List.length_cons] at hlt
  omega

theorem parseLoop_step {i i1 : Input} {v : Value}
    (hpv : parseValue i = some (.ok (i1, v))) (hlt : i1.length < i.length) :
    parseLoop i =
      (match parseLoop i1 with
        | none => none
        | some (.error e) => some (.error e)
        | some (.ok (i2, rest)) => some (.ok (i2, v :: rest))) := by
  rw [parseLoop]
  simp [hpv, dif_pos hlt]

theorem dictPair_step {i i1 i2 : Input} {k : Input} {v : Value}
    (hb : parse_bytes i = some (.ok (i1, .Bytes k)))
    (hv : parseValue i1 = some (.ok (i2, v))) :
    dictPair i = some (.ok (i2, (.Bytes k, v))) := by
  simp [dictPair_eq, hb, hv]

theorem toEntries_map (ps : List (Input × Value)) :
    toEntries (ps.map (fun p => (Value.Bytes p.1, p.2))) = some ps := by
  induction ps with
  | nil => rfl
  | cons p rest ih => simp [toEntries, toEntry, ih]

theorem specEncodes_head {v : Value} {b : Input} (h : SpecEncodes v b) :
    ∃ c t, b = c :: t ∧ c ≠ 101 := by
  cases h with
  | bytes L data hL hval h1 hbound =>
    obtain ⟨hne, hall⟩ := hL
    cases L with
    | nil => exact absurd rfl hne
    | cons d t' =>
      have hd : isDigit d = true := by
        simp only [List.all_cons, Bool.and_eq_true] at hall
        exact hall.1
      obtain ⟨hd1, hd2⟩ := digit_bounds hd
      exact ⟨d, t' ++ 58 :: data, by simp, by omega⟩
  | int_nonneg ds hds hmax => exact ⟨105, ds ++ [101], by simp, by decide⟩
  | int_neg ds hds hpos hmin => exact ⟨105, 45 :: (ds ++ [101]), rfl, by decide⟩
  | list vs b h => exact ⟨108, b ++ [101], rfl, by decide⟩
  | dict ps b h => exact ⟨100, b ++ [101], rfl, by decide⟩

/-- Main soundness induction: the decoder accepts every spec-well-formed
encoding and consumes exactly it, by strong induction on the length of the
encoded segment (sub-derivations of a composite value live on strictly
shorter segments). -/
theorem specEncodes_parse_aux : ∀ n : Nat,
    (∀ v b, b.length ≤ n → SpecEncodes v b → ∀ r,
        parseValue (b ++ r) = some (.ok (r, v))) ∧
    (∀ vs b, b.length ≤ n → SpecEncodesSeq vs b → ∀ r,
        listLoop (b ++ 101 :: r) = some (.ok (r, vs))) ∧
    (∀ ps b, b.length ≤ n → SpecEncodesPairs ps b → ∀ r,
        dictLoop (b ++ 101 :: r)
          = some (.ok (r, ps.map (fun p => (Value.Bytes p.1, p.2))))) ∧
    (∀ vs b, b.length ≤ n → SpecEncodesSeq vs b → ∀ r,
        parseLoop (b ++ r) =
          (match parseLoop r with
            | some (.ok (i2, ws)) => some (.ok (i2, vs ++ ws))
            | x => x)) := by
  intro n
  induction n using Nat.strong_induction_on with
  | _ n IH =>
  have hV : ∀ v b, b.length ≤ n → SpecEncodes v b → ∀ r,
      parseValue (b ++ r) = some (.ok (r, v)) := by
    intro v b hb h r
    cases h with
    | bytes L data hL hval h1 hbound =>
      exact parseValue_of_bytes_ok
        (parse_bytes_encoded (SpecEncodes.bytes L data hL hval h1 hbound) r)
    | int_nonneg ds hds hmax =>
      have hpe := parse_integer_encoded (SpecEncodes.int_nonneg ds hds hmax) r
      have hb2 : (105 :: ds ++ [101]) ++ r = 105 :: (ds ++ 101 :: r) := by simp
      rw [hb2] at hpe ⊢
      exact parseValue_of_integer_ok (parse_bytes_err_head (by decide)) hpe
    | int_neg ds hds hpos hmin =>
      have hpe := parse_integer_encoded (SpecEncodes.int_neg ds hds hpos hmin) r
      have hb2 : (105 :: 45 :: (ds ++ [101])) ++ r = 105 :: (45 :: (ds ++ 101 :: r)) := by
        simp
      rw [hb2] at hpe ⊢
      exact parseValue_of_integer_ok (parse_bytes_err_head (by decide)) hpe
    | list vs bb hseq =>
      have hbl : bb.length + 2 ≤ n := by simp at hb; omega
      have hb2 : (108 :: (bb ++ [101])) ++ r = 108 :: (bb ++ 101 :: r) := by simp
      rw [hb2]
      have hloop := (IH (n - 1) (by omega)).2.1 vs bb (by omega) hseq r
      have hpl : parse_list (108 :: (bb ++ 101 :: r)) = some (.ok (r, .List vs)) := by
        simp [parse_list_eq, pchar, hloop]
      exact parseValue_of_list_ok hpl
    | dict ps bb hp =>
      have hbl : bb.length + 2 ≤ n := by simp at hb; omega
      have hb2 : (100 :: (bb ++ [101])) ++ r = 100 :: (bb ++ 101 :: r) := by simp
      rw [hb2]
      have hloop := (IH (n - 1) (by omega)).2.2.1 ps bb (by omega) hp r
      have hpd : parse_dict (100 :: (bb ++ 101 :: r)) = some (.ok (r, .Dictionary ps)) := by
        simp [parse_dict_eq, pchar, hloop, toEntries_map]
      exact parseValue_of_dict_ok hpd
  have hS : ∀ vs b, b.length ≤ n → SpecEncodesSeq vs b → ∀ r,
      listLoop (b ++ 101 :: r) = some (.ok (r, vs)) := by
    intro vs b hb h r
    cases h with
    | nil => simpa using listLoop_term r
    | cons v vs' b1 b2 henc hseq =>
      obtain ⟨c, t, hct, hc⟩ := specEncodes_head henc
      have hb1 : 1 ≤ b1.length := by rw [hct]; simp
      have hbl : b1.length + b2.length ≤ n := by simp at hb; omega
      have hpv := hV v b1 (by omega) henc (b2 ++ 101 :: r)
      have hrec := (IH (n - 1) (by omega)).2.1 vs' b2 (by omega) hseq r
      subst hct
      have hpv2 : parseValue (c :: (t ++ (b2 ++ 101 :: r)))
          = some (.ok (b2 ++ 101 :: r, v)) := by simpa using hpv
      have hlt : (b2 ++ 101 :: r).length < (c :: (t ++ (b2 ++ 101 :: r))).length := by
        simp only [List.length_cons, List.length_append]
        omega
      have hstep := listLoop_step hc hpv2 hlt
      have hgoal : (c :: t ++ b2) ++ 101 :: r = c :: (t ++ (b2 ++ 101 :: r)) := by simp
      rw [hgoal, hstep, hrec]
  have hP : ∀ ps b, b.length ≤ n → SpecEncodesPairs ps b → ∀ r,
      dictLoop (b ++ 101 :: r)
        = some (.ok (r, ps.map (fun p => (Value.Bytes p.1, p.2)))) := by
    intro ps b hb h r
    cases h with
    | nil => simpa using dictLoop_term r
    | cons k v ps' bk bv b2 hkenc hvenc hps =>
      obtain ⟨c, t, hct, hc⟩ := specEncodes_head hkenc
      have hb1 : 1 ≤ bk.length := by rw [hct]; simp
      have hbl : bk.length + (bv.length + b2.length) ≤ n := by simp at hb; omega
      have hkb := parse_bytes_encoded hkenc (bv ++ (b2 ++ 101 :: r))
      have hvv := hV v bv (by omega) hvenc (b2 ++ 101 :: r)
      have hrec := (IH (n - 1) (by omega)).2.2.1 ps' b2 (by omega) hps r
      subst hct
      have hkb2 : parse_bytes (c :: (t ++ (bv ++ (b2 ++ 101 :: r))))
          = some (.ok (bv ++ (b2 ++ 101 :: r), .Bytes k)) := by simpa using hkb
      have hpair := dictPair_step hkb2 hvv
      have hlt : (b2 ++ 101 :: r).length < (c :: (t ++ (bv ++ (b2 ++ 101 :: r)))).length := by
        simp only [List.length_cons, List.length_append]
        omega
      have hstep := dictLoop_step hc hpair hlt
      have hgoal : (c :: t ++ (bv ++ b2)) ++ 101 :: r
          = c :: (t ++ (bv ++ (b2 ++ 101 :: r))) := by simp
      rw [hgoal, hstep, hrec]
      simp
  have hL : ∀ vs b, b.length ≤ n → SpecEncodesSeq vs b → ∀ r,
      parseLoop (b ++ r) =
        (match parseLoop r with
          | some (.ok (i2, ws)) => some (.ok (i2, vs ++ ws))
          | x => x) := by
    intro vs b hb h r
    cases h with
    | nil =>
      rw [List.nil_append]
      rcases hpr : parseLoop r with _ | (_ | ⟨i2, ws⟩) <;> simp [hpr]
    | cons v vs' b1 b2 henc hseq =>
      obtain ⟨c, t, hct, hc⟩ := specEncodes_head henc
      have hb1 : 1 ≤ b1.length := by rw [hct]; simp
      have hbl : b1.length + b2.length ≤ n := by simp at hb; omega
      have hpv := hV v b1 (by omega) henc (b2 ++ r)
      have hrec := (IH (n - 1) (by omega)).2.2.2 vs' b2 (by omega) hseq r
      subst hct
      have hpv2 : parseValue (c :: (t ++ (b2 ++ r))) = some (.ok (b2 ++ r, v)) := by
        simpa using hpv
      have hlt : (b2 ++ r).length < (c :: (t ++ (b2 ++ r))).length := by
        simp only [List.length_cons, List.length_append]
        omega
      have hstep := parseLoop_step hpv2 hlt
      have hgoal : (c :: t ++ b2) ++ r = c :: (t ++ (b2 ++ r)) := by simp
      rw [hgoal, hstep, hrec]
      rcases hpr : parseLoop r with _ | (_ | ⟨i2, ws⟩) <;> simp [hpr]
  exact ⟨hV, hS, hP, hL⟩

theorem parseLoop_nil : parseLoop [] = some (.ok ([], [])) := by
  rw [parseLoop]
  simp [parseValue_nil]

theorem specEncodesSeq_parse {vs : List Value} {b : Input} (h : SpecEncodesSeq vs b) :
    parse b = some (.ok vs) := by
  have hL := (specEncodes_parse_aux b.length).2.2.2 vs b le_rfl h []
  rw [List.append_nil, parseLoop_nil] at hL
  simp only [List.append_nil] at hL
  simp [parse, hL, peof]

theorem specEncodesSeq_parse_err {vs : List Value} {b r : Input} (h : SpecEncodesSeq vs b)
    (hr : r ≠ []) {e : NomErr} (he : parseValue r = some (.error e)) :
    ∃ e2, parse (b ++ r) = some (.error e2) := by
  have hL := (specEncodes_parse_aux b.length).2.2.2 vs b le_rfl h r
  cases e with
  | Error e1 =>
    have hpr : parseLoop r = some (.ok (r, [])) := by
      rw [parseLoop]
      simp [he]
    rw [hpr] at hL
    simp only [List.append_nil] at hL
    refine ⟨.Error (.Nom r .Eof), ?_⟩
    simp [parse, hL, peof, hr]
  | Failure e1 =>
    have hpr : parseLoop r = some (.error (.Failure e1)) := by
      rw [parseLoop]
      simp [he]
    rw [hpr] at hL
    exact ⟨.Failure e1, by simp [parse, hL]⟩

theorem takeWhile_all_isDigit (inp : Input) :
    ((inp.takeWhile isDigit).all isDigit) = true := by
  simp only [List.all_eq_true]
  intro a ha
  exact List.mem_takeWhile_imp ha

theorem digit1_ok_digits {inp i1 ds : Input} (h : digit1 inp = .ok (i1, ds)) :
    ds.all isDigit = true := by
  obtain ⟨h1, -, -⟩ := digit1_ok h
  subst h1
  exact takeWhile_all_isDigit inp

theorem parse_bytes_never_none (inp : Input) : parse_bytes inp ≠ none := by
  rcases hdig : digit1 inp with e | ⟨i1, L⟩
  · simp [parse_bytes, hdig]
  · have h128 := digitRun_all_lt_128 (digit1_ok_digits hdig)
    rcases hc : pchar 58 i1 with e | ⟨i2, b⟩
    · simp [parse_bytes, hdig, hc]
    · rcases hu : rustParseU64 L with _ | len
      · simp [parse_bytes, hdig, hc, h128, hu]
      · rcases Nat.eq_zero_or_pos len with h0 | h0
        · subst h0
          simp [parse_bytes, hdig, hc, h128, hu]
        · have h0' : len ≠ 0 := by omega
          rcases ht : ptake len i2 with e | ⟨i3, chars⟩ <;>
            simp [parse_bytes, hdig, hc, h128, hu, h0', ht]

theorem signedDigits_ok_shape {s : Nat} {inp i2 val : Input}
    (h : signedDigits s inp = .ok (i2, val)) :
    ∃ ds, val = s :: ds ∧ ds.all isDigit = true := by
  unfold signedDigits at h
  split at h
  · cases h
  · rename_i i1 b heq
    split at h
    · cases h
    · rename_i i3 ds heq2
      simp only [Except.ok.injEq, Prod.mk.injEq] at h
      exact ⟨ds, h.2.symm, digit1_ok_digits heq2⟩

theorem intBody_lt128 {inp i1 val : Input} (h : intBody inp = .ok (i1, val)) :
    val.all (fun b => decide (b < 128)) = true := by
  unfold intBody at h
  split at h
  · rename_i r heq
    simp only [Except.ok.injEq] at h
    obtain ⟨ds, hval, hds⟩ := signedDigits_ok_shape heq
    have : r.2 = val := by rw [h]
    rw [← this, hval]
    simp only [List.all_cons, Bool.and_eq_true]
    exact ⟨by decide, digitRun_all_lt_128 hds⟩
  · cases h
  · split at h
    · rename_i r heq
      simp only [Except.ok.injEq] at h
      obtain ⟨ds, hval, hds⟩ := signedDigits_ok_shape heq
      have : r.2 = val := by rw [h]
      rw [← this, hval]
      simp only [List.all_cons, Bool.and_eq_true]
      exact ⟨by decide, digitRun_all_lt_128 hds⟩
    · cases h
    · exact digitRun_all_lt_128 (digit1_ok_digits h)

theorem parse_integer_never_none (inp : Input) : parse_integer inp ≠ none := by
  rcases hi : pchar 105 inp with e | ⟨i0, b⟩
  · simp [parse_integer, hi]
  · rcases hb : intBody i0 with e | ⟨i1, val⟩
    · simp [parse_integer, hi, hb]
    · have h128 := intBody_lt128 hb
      rcases he : pchar 101 i1 with e | ⟨i2, b2⟩
      · simp [parse_integer, hi, hb, he]
      · rcases hv : violatesCanon val with _ | _
        · rcases hp : rustParseI64 val with _ | v <;>
            simp [parse_integer, hi, hb, he, h128, hv, hp]
        · simp [parse_integer, hi, hb, he, h128, hv]

theorem toEntries_of_keys {prs : List (Value × Value)}
    (h : ∀ p ∈ prs, ∃ k, p.1 = Value.Bytes k) : toEntries prs ≠ none := by
  induction prs with
  | nil => simp [toEntries]
  | cons p rest ih =>
    obtain ⟨k, hk⟩ := h p (by simp)
    have hrest := ih (fun q hq => h q (by simp [hq]))
    rcases he : toEntries rest with _ | es
    · exact absurd he hrest
    · simp [toEntries, toEntry, hk, he]

/-- No reachable input makes any decoder hit a panic site (`none`): the
strong induction backing the never-panics claim. -/
theorem decoder_never_none_aux : ∀ n : Nat,
    (∀ inp : Input, inp.length ≤ n → parse_list inp ≠ none) ∧
    (∀ inp : Input, inp.length ≤ n → parse_dict inp ≠ none) ∧
    (∀ inp : Input, inp.length ≤ n → parseValue inp ≠ none) ∧
    (∀ inp : Input, inp.length ≤ n →
      (dictPair inp ≠ none ∧
        ∀ i2 p, dictPair inp = some (.ok (i2, p)) → ∃ k, p.1 = Value.Bytes k)) ∧
    (∀ inp : Input, inp.length ≤ n → listLoop inp ≠ none) ∧
    (∀ inp : Input, inp.length ≤ n →
      (dictLoop inp ≠ none ∧
        ∀ i2 prs, dictLoop inp = some (.ok (i2, prs)) →
          ∀ p ∈ prs, ∃ k, p.1 = Value.Bytes k)) := by
  intro n
  induction n using Nat.strong_induction_on with
  | _ n IH =>
  have hPL : ∀ inp : Input, inp.length ≤ n → parse_list inp ≠ none := by
    intro inp hlen
    rw [parse_list_eq]
    rcases hc : pchar 108 inp with e | ⟨i1, b⟩
    · simp
    · have hin : inp = 108 :: i1 := pchar_ok hc
      subst hin
      have hi1 : i1.length ≤ n - 1 := by simp at hlen; omega
      have hn1 : n - 1 < n := by simp at hlen; omega
      have hll := (IH (n - 1) hn1).2.2.2.2.1 i1 hi1
      rcases hl : listLoop i1 with _ | (e | ⟨i2, items⟩)
      · exact absurd hl hll
      · simp [hl]
      · simp [hl]
  have hPD : ∀ inp : Input, inp.length ≤ n → parse_dict inp ≠ none := by
    intro inp hlen
    rw [parse_dict_eq]
    rcases hc : pchar 100 inp with e | ⟨i1, b⟩
    · simp
    · have hin : inp = 100 :: i1 := pchar_ok hc
      subst hin
      have hi1 : i1.length ≤ n - 1 := by simp at hlen; omega
      have hn1 : n - 1 < n := by simp at hlen; omega
      obtain ⟨hdl, hdlk⟩ := (IH (n - 1) hn1).2.2.2.2.2 i1 hi1
      rcases hl : dictLoop i1 with _ | (e | ⟨i2, prs⟩)
      · exact absurd hl hdl
      · simp [hl]
      · have hte := toEntries_of_keys (hdlk i2 prs hl)
        rcases ht : toEntries prs with _ | es
        · exact absurd ht hte
        · simp [hl, ht]
  have hPV : ∀ inp : Input, inp.length ≤ n → parseValue inp ≠ none := by
    intro inp hlen
    rw [parseValue]
    rcases hb : parse_bytes inp with _ | (e | r)
    · exact absurd hb (parse_bytes_never_none inp)
    · rcases e with e | e
      · rcases hi : parse_integer inp with _ | (e2 | r2)
        · exact absurd hi (parse_integer_never_none inp)
        · rcases e2 with e2 | e2
          · rcases hpl : parse_list inp with _ | (e3 | r3)
            · exact absurd hpl (hPL inp hlen)
            · rcases e3 with e3 | e3
              · rcases hpd : parse_dict inp with _ | r4
                · exact absurd hpd (hPD inp hlen)
                · simp [hb, hi, hpl, hpd]
              · simp [hb, hi, hpl]
            · simp [hb, hi, hpl]
          · simp [hb, hi]
        · simp [hb, hi]
      · simp [hb]
    · simp [hb]
  have hDP : ∀ inp : Input, inp.length ≤ n →
      (dictPair inp ≠ none ∧
        ∀ i2 p, dictPair inp = some (.ok (i2, p)) → ∃ k, p.1 = Value.Bytes k) := by
    intro inp hlen
    rw [dictPair_eq]
    rcases hb : parse_bytes inp with _ | (e | ⟨i1, k⟩)
    · exact absurd hb (parse_bytes_never_none inp)
    · simp
    · have hi1 : i1.length < inp.length := parse_bytes_consumes hb
      have hpv := (IH i1.length (by omega)).2.2.1 i1 le_rfl
      obtain ⟨kk, hkk⟩ := parse_bytes_ok_shape hb
      rcases hv : parseValue i1 with _ | (e | ⟨i2, v⟩)
      · exact absurd hv hpv
      · simp [hv]
      · constructor
        · simp [hv]
        · intro i3 p hp
          simp only [hv, Option.some.injEq, Except.ok.injEq, Prod.mk.injEq] at hp
          exact ⟨kk, by rw [← hp.2]; exact hkk⟩
  have hLL : ∀ inp : Input, inp.length ≤ n → listLoop inp ≠ none := by
    intro inp hlen
    rw [listLoop]
    rcases hc : pchar 101 inp with e | ⟨i1, b⟩
    · rcases e with e | e
      · rcases hv : parseValue inp with _ | (e2 | ⟨i1, v⟩)
        · exact absurd hv (hPV inp hlen)
        · rcases e2 with e2 | e2 <;> simp [hv]
        · simp only [hv]
          by_cases hlt : i1.length < inp.length
          · rw [dif_pos hlt]
            have hrec := (IH i1.length (by omega)).2.2.2.2.1 i1 le_rfl
            rcases hl : listLoop i1 with _ | (e3 | ⟨i2, rest⟩)
            · exact absurd hl hrec
            · simp [hl]
            · simp [hl]
          · rw [dif_neg hlt]
            simp
      · simp [hc]
    · simp [hc]
  have hDL : ∀ inp : Input, inp.length ≤ n →
      (dictLoop inp ≠ none ∧
        ∀ i2 prs, dictLoop inp = some (.ok (i2, prs)) →
          ∀ p ∈ prs, ∃ k, p.1 = Value.Bytes k) := by
    intro inp hlen
    rw [dictLoop]
    rcases hc : pchar 101 inp with e | ⟨i1, b⟩
    · rcases e with e | e
      · obtain ⟨hdp, hdpk⟩ := hDP inp hlen
        rcases hv : dictPair inp with _ | (e2 | ⟨i1, p⟩)
        · exact absurd hv hdp
        · rcases e2 with e2 | e2 <;> simp [hv]
        · simp only [hv]
          by_cases hlt : i1.length < inp.length
          · rw [dif_pos hlt]
            obtain ⟨hrec, hreck⟩ := (IH i1.length (by omega)).2.2.2.2.2 i1 le_rfl
            rcases hl : dictLoop i1 with _ | (e3 | ⟨i2, rest⟩)
            · exact absurd hl hrec
            · simp [hl]
            · constructor
              · simp [hl]
              · intro i3 prs hprs
                simp only [hl, Option.some.injEq, Except.ok.injEq, Prod.mk.injEq] at hprs
                intro q hq
                rw [← hprs.2] at hq
                rcases List.mem_cons.mp hq with hq | hq
                · rw [hq]
                  exact hdpk i1 p hv
                · exact hreck i2 rest hl q hq
          · rw [dif_neg hlt]
            constructor
            · simp
            · intro i3 prs hprs
              simp at hprs
      · constructor
        · simp [hc]
        · intro i3 prs hprs
          simp [hc] at hprs
    · constructor
      · simp [hc]
      · intro i3 prs hprs
        simp [hc] at hprs
        obtain ⟨-, h2⟩ := hprs
        subst h2
        intro q hq
        simp at hq
  exact ⟨hPL, hPD, hPV, hDP, hLL, hDL⟩

theorem parseLoop_never_none : ∀ n (i : Input), i.length ≤ n → parseLoop i ≠ none := by
  intro n
  induction n using Nat.strong_induction_on with
  | _ n IH =>
  intro i hi
  rw [parseLoop]
  have hpv := (decoder_never_none_aux i.length).2.2.1 i le_rfl
  rcases hv : parseValue i with _ | (e | ⟨i1, v⟩)
  · exact absurd hv hpv
  · rcases e with e | e <;> simp [hv]
  · simp only [hv]
    by_cases hlt : i1.length < i.length
    · rw [dif_pos hlt]
      have hrec := IH i1.length (by omega) i1 le_rfl
      rcases hl : parseLoop i1 with _ | (e2 | ⟨i2, rest⟩)
      · exact absurd hl hrec
      · simp [hl]
      · simp [hl]
    · rw [dif_neg hlt]
      simp

theorem parse_never_none (source : Input) : parse source ≠ none := by
  have hloop := parseLoop_never_none source.length source le_rfl
  rcases hl : parseLoop source with _ | (e | ⟨s2, items⟩)
  · exact absurd hl hloop
  · simp [parse, hl]
  · rcases he : peof s2 with e | r <;> simp [parse, hl, he]

theorem intBody_le {inp i1 val : Input} (h : intBody inp = .ok (i1, val)) :
    i1.length ≤ inp.length := by
  have hsd : ∀ s i2 v2, signedDigits s inp = .ok (i2, v2) → i2.length ≤ inp.length := by
    intro s i2 v2 hh
    unfold signedDigits at hh
    split at hh
    · cases hh
    · rename_i ii b heq
      split at hh
      · cases hh
      · rename_i i3 ds heq2
        simp only [Except.ok.injEq, Prod.mk.injEq] at hh
        have h1 := digit1_consumes heq2
        have h2 := pchar_ok heq
        rw [← hh.1]
        rw [h2]
        simp only [List.length_cons]
        omega
  unfold intBody at h
  split at h
  · rename_i r heq
    simp only [Except.ok.injEq] at h
    subst h
    simpa using hsd _ _ _ heq
  · cases h
  · split at h
    · rename_i r heq
      simp only [Except.ok.injEq] at h
      subst h
      simpa using hsd _ _ _ heq
    · cases h
    · exact Nat.le_of_lt (digit1_consumes h)

theorem parse_integer_consumes {inp i2 : Input} {v : Value}
    (h : parse_integer inp = some (.ok (i2, v))) : i2.length < inp.length := by
  simp only [parse_integer] at h
  split at h
  · simp at h
  · rename_i i0 b heq
    split at h
    · simp at h
    · rename_i i1 val heq2
      split at h
      · simp at h
      · rename_i i3 b2 heq3
        split at h
        · split at h
          · simp at h
          · split at h
            · simp only [Option.some.injEq, Except.ok.injEq, Prod.mk.injEq] at h
              obtain ⟨h1, -⟩ := h
              subst h1
              have e1 := pchar_ok heq
              have e2 := intBody_le heq2
              have e3 := pchar_ok heq3
              rw [e1]
              rw [e3] at e2
              simp only [List.length_cons] at e2 ⊢
              omega
            · simp at h
        · simp at h

theorem listLoop_consumes : ∀ n (i : Input), i.length ≤ n → ∀ i2 vs,
    listLoop i = some (.ok (i2, vs)) → i2.length < i.length := by
  intro n
  induction n using Nat.strong_induction_on with
  | _ n IH =>
  intro i hi i2 vs h
  rw [listLoop] at h
  split at h
  · rename_i i1 b heq
    simp only [Option.some.injEq, Except.ok.injEq, Prod.mk.injEq] at h
    obtain ⟨h1, -⟩ := h
    subst h1
    have := pchar_ok heq
    rw [this]
    simp
  · simp at h
  · split at h
    · simp at h
    · simp at h
    · simp at h
    · rename_i i1 v heq
      split at h
      · rename_i hlt
        split at h
        · simp at h
        · simp at h
        · rename_i i3 rest heq2
          simp only [Option.some.injEq, Except.ok.injEq, Prod.mk.injEq] at h
          obtain ⟨h1, -⟩ := h
          rw [← h1]
          have := IH i1.length (by omega) i1 le_rfl i3 rest heq2
          omega
      · simp at h

theorem dictLoop_consumes : ∀ n (i : Input), i.length ≤ n → ∀ i2 prs,
    dictLoop i = some (.ok (i2, prs)) → i2.length < i.length := by
  intro n
  induction n using Nat.strong_induction_on with
  | _ n IH =>
  intro i hi i2 prs h
  rw [dictLoop] at h
  split at h
  · rename_i i1 b heq
    simp only [Option.some.injEq, Except.ok.injEq, Prod.mk.injEq] at h
    obtain ⟨h1, -⟩ := h
    subst h1
    have := pchar_ok heq
    rw [this]
    simp
  · simp at h
  · split at h
    · simp at h
    · simp at h
    · simp at h
    · rename_i i1 p heq
      split at h
      · rename_i hlt
        split at h
        · simp at h
        · simp at h
        · rename_i i3 rest heq2
          simp only [Option.some.injEq, Except.ok.injEq, Prod.mk.injEq] at h
          obtain ⟨h1, -⟩ := h
          rw [← h1]
          have := IH i1.length (by omega) i1 le_rfl i3 rest heq2
          omega
      · simp at h

theorem parse_list_consumes {inp i2 : Input} {v : Value}
    (h : parse_list inp = some (.ok (i2, v))) : i2.length < inp.length := by
  rw [parse_list_eq] at h
  split at h
  · simp at h
  · rename_i i1 b heq
    split at h
    · simp at h
    · simp at h
    · rename_i i3 items heq2
      simp only [Option.some.injEq, Except.ok.injEq, Prod.mk.injEq] at h
      obtain ⟨h1, -⟩ := h
      rw [← h1]
      have e1 := pchar_ok heq
      have e2 := listLoop_consumes i1.length i1 le_rfl i3 items heq2
      rw [e1]
      simp only [List.length_cons]
      omega

theorem parse_dict_consumes {inp i2 : Input} {v : Value}
    (h : parse_dict inp = some (.ok (i2, v))) : i2.length < inp.length := by
  rw [parse_dict_eq] at h
  split at h
  · simp at h
  · rename_i i1 b heq
    split at h
    · simp at h
    · simp at h
    · rename_i i3 prs heq2
      split at h
      · simp only [Option.some.injEq, Except.ok.injEq, Prod.mk.injEq] at h
        obtain ⟨h1, -⟩ := h
        rw [← h1]
        have e1 := pchar_ok heq
        have e2 := dictLoop_consumes i1.length i1 le_rfl i3 prs heq2
        rw [e1]
        simp only [List.length_cons]
        omega
      · simp at h

theorem parseValue_consumes {inp i1 : Input} {v : Value}
    (h : parseValue inp = some (.ok (i1, v))) : i1.length < inp.length := by
  rw [parseValue] at h
  split at h
  · simp at h
  · rename_i r heq
    simp only [Option.some.injEq, Except.ok.injEq] at h
    subst h
    exact parse_bytes_consumes heq
  · simp at h
  · split at h
    · simp at h
    · rename_i r heq
      simp only [Option.some.injEq, Except.ok.injEq] at h
      subst h
      exact parse_integer_consumes heq
    · simp at h
    · split at h
      · simp at h
      · rename_i r heq
        simp only [Option.some.injEq, Except.ok.injEq] at h
        subst h
        exact parse_list_consumes heq
      · simp at h
      · exact parse_dict_consumes h

/-- C2: `parse` never panics on any finite input, and neither does any
decoder it calls: the result is never `none`, i.e. the two `from_utf8`
`expect` calls (embedded as the all-ASCII guards in `parse_integer` and
`parse_bytes`) and the `unreachable` branch for a non-byte-string
dictionary key in `parse_dict` are unreachable. -/
theorem parse_never_panics : ∀ inp : Input,
    (parse inp).isSome = true ∧ (parse_integer inp).isSome = true ∧
      (parse_bytes inp).isSome = true ∧ (parse_dict inp).isSome = true ∧
      (parseValue inp).isSome = true := by
  intro inp
  refine ⟨?_, ?_, ?_, ?_, ?_⟩ <;> rw [Option.isSome_iff_ne_none]
  · exact parse_never_none inp
  · exact parse_integer_never_none inp
  · exact parse_bytes_never_none inp
  · exact (decoder_never_none_aux inp.length).2.1 inp le_rfl
  · exact (decoder_never_none_aux inp.length).2.2.1 inp le_rfl

/-- C3: for every finite input, `parse` terminates with either Ok or Err
(the embedding is a total function, accepted by well-founded recursion on
the input length, which is the termination argument for the mutually
recursive decoders), and every successful value parse strictly consumes
input — the progress property that rules out an infinite loop when a
list or dictionary terminator never appears. -/
theorem parse_terminates : ∀ inp : Input,
    ((∃ vs, parse inp = some (.ok vs)) ∨ (∃ e, parse inp = some (.error e))) ∧
    (∀ i1 v, parseValue inp = some (.ok (i1, v)) → i1.length < inp.length) := by
  intro inp
  constructor
  · rcases hp : parse inp with _ | (e | vs)
    · exact absurd hp (parse_never_none inp)
    · exact Or.inr ⟨e, rfl⟩
    · exact Or.inl ⟨vs, rfl⟩
  · intro i1 v h
    exact parseValue_consumes h

/-- Witness for C3's progress clause at `"i3e"`. -/
theorem parse_terminates_witness :
    parseValue [105, 51, 101] = some (.ok ([], Value.Integer 3)) ∧
    ([] : Input).length < ([105, 51, 101] : Input).length := by
  have hpv : parseValue [105, 51, 101] = some (.ok ([], Value.Integer 3)) := by
    simp [parseValue, parse_bytes, parse_integer, digit1, pchar, intBody, signedDigits,
      isDigit, violatesCanon, rustParseI64, digitsVal, i64Min, i64Max]
  exact ⟨hpv, (parse_terminates [105, 51, 101]).2 [] (Value.Integer 3) hpv⟩

/-- C4 counterexample: the integer decoder does NOT reject a leading plus
sign: on `"i+3e"` it returns Ok with Integer 3 rather than an error. -/
theorem plus_integer_accepted_cex :
    parse_integer [105, 43, 51, 101] = some (.ok ([], .Integer 3)) := rfl

theorem intBody_plus_digits {ds : Input} (hds : IsDigitRun ds) {x : Nat}
    (hx : isDigit x = false) (rest : Input) :
    intBody (43 :: (ds ++ x :: rest)) = .ok (x :: rest, 43 :: ds) := by
  have hd1 := digit1_run hds hx rest
  simp [intBody, signedDigits, pchar, hd1]

/-- C4 (amended): the integer decoder accepts a leading `+`: for every
input `i` `+` digits `e` whose digit run denotes a value within the signed
64-bit range, it returns Ok with that value, because the recognizer has an
explicit `+` branch, the canonical-form check only looks for `-0` and a
leading zero digit (a `+`-prefixed run starts with `+`), and Rust's `i64`
parser accepts a leading `+` sign. -/
theorem plus_integer_accepted {ds : Input} (hds : IsDigitRun ds)
    (hmax : (digitsVal ds : Int) ≤ i64Max) (r : Input) :
    parse_integer (105 :: 43 :: (ds ++ 101 :: r))
      = some (.ok (r, .Integer (digitsVal ds))) := by
  obtain ⟨hne, hall⟩ := hds
  have hbody := intBody_plus_digits ⟨hne, hall⟩ (by decide : isDigit 101 = false) r
  have hviol : violatesCanon (43 :: ds) = false := by
    simp [violatesCanon, List.take_cons]
  have h128 : (43 :: ds).all (fun b => decide (b < 128)) = true := by
    simp only [List.all_cons, Bool.and_eq_true]
    exact ⟨by decide, digitRun_all_lt_128 hall⟩
  have hi64 : rustParseI64 (43 :: ds) = some (digitsVal ds) := by
    have hmin : i64Min ≤ (digitsVal ds : Int) := by
      have h0 : (0 : Int) ≤ (digitsVal ds : Int) := Int.ofNat_nonneg _
      have h0' : i64Min ≤ (0 : Int) := by decide
      omega
    simp [rustParseI64, hne, hall, hmin, hmax]
  simp [parse_integer, pchar, hbody, hviol, h128, hi64]

/-- Witness for the amended C4 at the concrete input `"i+3e"`. -/
theorem plus_integer_accepted_witness :
    IsDigitRun [51] ∧ ((digitsVal [51] : Int) ≤ i64Max) ∧
    parse_integer [105, 43, 51, 101] = some (.ok ([], .Integer 3)) := by
  refine ⟨⟨by decide, by decide⟩, by decide, ?_⟩
  have h := plus_integer_accepted (⟨by decide, by decide⟩ : IsDigitRun [51]) (by decide) []
  simpa [digitsVal] using h

/-- C5: the integer decoder enforces canonical form.  In general: any
digit run with a redundant leading zero (two or more characters starting
with the digit zero) is rejected with the invalid-integer failure, and so
is any negative body starting `-0`; concretely, `"i-0e"`, `"i00e"`,
`"i-00e"`, `"i03e"`, `"i0040e"` all fail with `InvalidInteger` while
`"i0e"` yields Ok Integer 0. -/
theorem integer_canonical_form :
    (∀ d2 t r, ((48 :: d2 :: t).all isDigit = true) →
      parse_integer (105 :: ((48 :: d2 :: t) ++ 101 :: r))
        = some (.error (.Failure
            (.InvalidInteger (105 :: ((48 :: d2 :: t) ++ 101 :: r)))))) ∧
    (∀ t r, ((48 :: t).all isDigit = true) →
      parse_integer (105 :: 45 :: ((48 :: t) ++ 101 :: r))
        = some (.error (.Failure
            (.InvalidInteger (105 :: 45 :: ((48 :: t) ++ 101 :: r)))))) ∧
    parse_integer [105, 45, 48, 101]
      = some (.error (.Failure (.InvalidInteger [105, 45, 48, 101]))) ∧
    parse_integer [105, 48, 48, 101]
      = some (.error (.Failure (.InvalidInteger [105, 48, 48, 101]))) ∧
    parse_integer [105, 45, 48, 48, 101]
      = some (.error (.Failure (.InvalidInteger [105, 45, 48, 48, 101]))) ∧
    parse_integer [105, 48, 51, 101]
      = some (.error (.Failure (.InvalidInteger [105, 48, 51, 101]))) ∧
    parse_integer [105, 48, 48, 52, 48, 101]
      = some (.error (.Failure (.InvalidInteger [105, 48, 48, 52, 48, 101]))) ∧
    parse_integer [105, 48, 101] = some (.ok ([], .Integer 0)) := by
  refine ⟨?_, ?_, rfl, rfl, rfl, rfl, rfl, rfl⟩
  · intro d2 t r hall
    have hbody : intBody (48 :: d2 :: (t ++ 101 :: r)) = .ok (101 :: r, 48 :: d2 :: t) := by
      simpa using intBody_digits (⟨by simp, hall⟩ : IsDigitRun (48 :: d2 :: t))
        (by decide : isDigit 101 = false) r
    have h128 := digitRun_all_lt_128 hall
    have hviol : violatesCanon (48 :: d2 :: t) = true := by
      simp [violatesCanon]
    simp [parse_integer, pchar, hbody, h128, hviol]
  · intro t r hall
    have hbody : intBody (45 :: 48 :: (t ++ 101 :: r)) = .ok (101 :: r, 45 :: 48 :: t) := by
      simpa using intBody_neg_digits (⟨by simp, hall⟩ : IsDigitRun (48 :: t))
        (by decide : isDigit 101 = false) r
    have h128 : (45 :: 48 :: t).all (fun b => decide (b < 128)) = true := by
      simp only [List.all_cons, Bool.and_eq_true]
      have := digitRun_all_lt_128 hall
      simp only [List.all_cons, Bool.and_eq_true] at this
      exact ⟨by decide, by decide, this.2⟩
    have hviol : violatesCanon (45 :: 48 :: t) = true := by
      simp [violatesCanon, List.take_cons]
    simp [parse_integer, pchar, hbody, h128, hviol]

/-- Witness for C5's general clauses: the leading-zero run `"03"` and the
negative-zero run `"-00"` are rejected. -/
theorem integer_canonical_form_witness :
    ((48 :: 51 :: []).all isDigit = true) ∧ ((48 :: 48 :: []).all isDigit = true) ∧
    parse_integer [105, 48, 51, 101]
      = some (.error (.Failure (.InvalidInteger [105, 48, 51, 101]))) ∧
    parse_integer [105, 45, 48, 48, 101]
      = some (.error (.Failure (.InvalidInteger [105, 45, 48, 48, 101]))) := by
  refine ⟨by decide, by decide, ?_, ?_⟩
  · have h := integer_canonical_form.1 51 [] [] (by decide)
    simpa using h
  · have h := integer_canonical_form.2.1 [48] [] (by decide)
    simpa using h

theorem rustParseI64_digits_overflow {ds : Input} (hds : IsDigitRun ds)
    (hmax : i64Max < (digitsVal ds : Int)) : rustParseI64 ds = none := by
  obtain ⟨hne, hall⟩ := hds
  cases ds with
  | nil => exact absurd rfl hne
  | cons d t =>
    have hd : isDigit d = true := by
      simp only [List.all_cons, Bool.and_eq_true] at hall
      exact hall.1
    obtain ⟨hdb1, hdb2⟩ := digit_bounds hd
    have h43 : d ≠ 43 := by omega
    have h45 : d ≠ 45 := by omega
    have hno : ¬(i64Min ≤ (digitsVal (d :: t) : Int) ∧ (digitsVal (d :: t) : Int) ≤ i64Max) := by
      intro hcon
      omega
    simp [rustParseI64, h43, h45, hall, hno]

theorem rustParseI64_neg_digits_overflow {ds : Input} (hds : IsDigitRun ds)
    (hmin : -(digitsVal ds : Int) < i64Min) : rustParseI64 (45 :: ds) = none := by
  obtain ⟨hne, hall⟩ := hds
  have hno : ¬(i64Min ≤ -(digitsVal ds : Int) ∧ -(digitsVal ds : Int) ≤ i64Max) := by
    intro hcon
    omega
  simp [rustParseI64, hne, hall, hno]

/-- C6: a digit sequence denoting a value outside the signed 64-bit range
always produces a fatal decode error (an `InvalidInteger` failure when the
canonical-form check already rejects the run, a `ParseIntError` failure
otherwise), never an Ok with a wrapped or truncated value. -/
theorem integer_overflow_rejected :
    (∀ ds r, IsDigitRun ds → i64Max < (digitsVal ds : Int) →
      ∃ e, parse_integer (105 :: (ds ++ 101 :: r)) = some (.error (.Failure e))) ∧
    (∀ ds r, IsDigitRun ds → -(digitsVal ds : Int) < i64Min →
      ∃ e, parse_integer (105 :: 45 :: (ds ++ 101 :: r))
        = some (.error (.Failure e))) := by
  constructor
  · intro ds r hds hmax
    obtain ⟨hne, hall⟩ := hds
    have hbody := intBody_digits (⟨hne, hall⟩ : IsDigitRun ds) (by decide : isDigit 101 = false) r
    have h128 := digitRun_all_lt_128 hall
    rcases hviol : violatesCanon ds with _ | _
    · have hof := rustParseI64_digits_overflow ⟨hne, hall⟩ hmax
      exact ⟨.ParseIntError r, by simp [parse_integer, pchar, hbody, h128, hviol, hof]⟩
    · exact ⟨.InvalidInteger (105 :: (ds ++ 101 :: r)),
        by simp [parse_integer, pchar, hbody, h128, hviol]⟩
  · intro ds r hds hmin
    obtain ⟨hne, hall⟩ := hds
    have hbody := intBody_neg_digits (⟨hne, hall⟩ : IsDigitRun ds) (by decide : isDigit 101 = false) r
    have h128 : (45 :: ds).all (fun b => decide (b < 128)) = true := by
      simp only [List.all_cons, Bool.and_eq_true]
      exact ⟨by decide, digitRun_all_lt_128 hall⟩
    rcases hviol : violatesCanon (45 :: ds) with _ | _
    · have hof := rustParseI64_neg_digits_overflow ⟨hne, hall⟩ hmin
      exact ⟨.ParseIntError r, by simp [parse_integer, pchar, hbody, h128, hviol, hof]⟩
    · exact ⟨.InvalidInteger (105 :: 45 :: (ds ++ 101 :: r)),
        by simp [parse_integer, pchar, hbody, h128, hviol]⟩

/-- Witness for C6 at `"i9223372036854775808e"` (2^63, one past i64Max). -/
theorem integer_overflow_rejected_witness :
    IsDigitRun [57, 50, 50, 51, 51, 55, 50, 48, 51, 54, 56, 53, 52, 55, 55, 53, 56, 48, 56] ∧
    i64Max < (digitsVal [57, 50, 50, 51, 51, 55, 50, 48, 51, 54, 56, 53, 52, 55, 55, 53, 56, 48, 56] : Int) ∧
    ∃ e, parse_integer
        (105 :: ([57, 50, 50, 51, 51, 55, 50, 48, 51, 54, 56, 53, 52, 55, 55, 53, 56, 48, 56] ++ 101 :: []))
      = some (.error (.Failure e)) := by
  refine ⟨⟨by decide, by decide⟩, by decide, ?_⟩
  exact integer_overflow_rejected.1 _ [] ⟨by decide, by decide⟩ (by decide)

theorem digit1_err_shape {inp : Input} {e : NomErr} (h : digit1 inp = .error e) :
    e = .Error (.Nom inp .Digit) := by
  simp only [digit1] at h
  split at h
  · simp only [Except.error.injEq] at h
    exact h.symm
  · simp at h

theorem pchar_err_shape {c : Nat} {inp : Input} {e : NomErr}
    (h : pchar c inp = .error e) : e = .Error (.Nom inp .Char) := by
  cases inp with
  | nil =>
    simp only [pchar, Except.error.injEq] at h
    exact h.symm
  | cons b rest =>
    simp only [pchar] at h
    split at h
    · simp at h
    · simp only [Except.error.injEq] at h
      exact h.symm

theorem ptake_err_shape {n : Nat} {inp : Input} {e : NomErr}
    (h : ptake n inp = .error e) : e = .Error (.Nom inp .Eof) := by
  simp only [ptake] at h
  split at h
  · simp only [Except.error.injEq] at h
    exact h.symm
  · simp at h

/-- C7 counterexample: on `"2:a"` (declared length 2, only one byte
remaining) the byte-string decoder fails with a recoverable nom `Eof`
error from `take`, not with the `InvalidBytesLength` error, so
`InvalidBytesLength` does not cover the insufficient-input situation. -/
theorem bytes_length_error_cex :
    parse_bytes [50, 58, 97] = some (.error (.Error (.Nom [97] .Eof))) := rfl

/-- C7 (amended): the byte-string decoder raises `InvalidBytesLength`
exactly when the declared length is zero (and then it is a fatal Failure
holding the whole input); when the declared length exceeds the remaining
bytes it fails with a recoverable nom `Eof` error from `take` — in both
situations nothing is consumed as a partial read (the result is an error,
never an Ok with a shorter slice). -/
theorem bytes_length_errors :
    (∀ L r, IsDigitRun L → digitsVal L = 0 →
      parse_bytes (L ++ 58 :: r)
        = some (.error (.Failure (.InvalidBytesLength (L ++ 58 :: r))))) ∧
    (∀ L r, IsDigitRun L → digitsVal L < u64Size → 0 < digitsVal L →
      r.length < digitsVal L →
      parse_bytes (L ++ 58 :: r) = some (.error (.Error (.Nom r .Eof)))) ∧
    (∀ inp s, parse_bytes inp = some (.error (.Failure (.InvalidBytesLength s))) →
      s = inp ∧ rustParseU64 (inp.takeWhile isDigit) = some 0) := by
  refine ⟨?_, ?_, ?_⟩
  · intro L r hL h0
    have hd1 := digit1_run hL (by decide : isDigit 58 = false) r
    have h128 := digitRun_all_lt_128 hL.2
    have hu : rustParseU64 L = some 0 := by
      have h := rustParseU64_run hL (by rw [h0]; decide)
      rw [h0] at h
      exact h
    simp [parse_bytes, hd1, pchar, h128, hu]
  · intro L r hL hbound hpos hshort
    have hd1 := digit1_run hL (by decide : isDigit 58 = false) r
    have h128 := digitRun_all_lt_128 hL.2
    have hu := rustParseU64_run hL hbound
    have hne0 : digitsVal L ≠ 0 := by omega
    have htk : ptake (digitsVal L) r = .error (.Error (.Nom r .Eof)) := by
      simp [ptake, hshort]
    simp [parse_bytes, hd1, pchar, h128, hu, hne0, htk]
  · intro inp s h
    simp only [parse_bytes] at h
    split at h
    · rename_i e heq
      rw [digit1_err_shape heq] at h
      simp at h
    · rename_i i1 L hdig
      split at h
      · rename_i e heq
        rw [pchar_err_shape heq] at h
        simp at h
      · rename_i i2 b hcolon
        split at h
        · split at h
          · simp at h
          · rename_i len hu
            split at h
            · rename_i h0
              simp only [Option.some.injEq, Except.error.injEq] at h
              have hs : s = inp := by
                cases h
                rfl
              refine ⟨hs, ?_⟩
              rw [← (digit1_ok hdig).1, hu, h0]
            · split at h
              · rename_i e heq
                rw [ptake_err_shape heq] at h
                simp at h
              · simp at h
        · simp at h

/-- Witness for the amended C7: `"0:a"` raises `InvalidBytesLength`, and
`"2:a"` raises the nom `Eof` error. -/
theorem bytes_length_errors_witness :
    IsDigitRun [48] ∧ digitsVal [48] = 0 ∧ IsDigitRun [50] ∧
    (0 < digitsVal [50] ∧ ([97] : Input).length < digitsVal [50]) ∧
    parse_bytes [48, 58, 97]
      = some (.error (.Failure (.InvalidBytesLength [48, 58, 97]))) ∧
    parse_bytes [50, 58, 97] = some (.error (.Error (.Nom [97] .Eof))) := by
  refine ⟨⟨by decide, by decide⟩, by decide, ⟨by decide, by decide⟩,
    ⟨by decide, by decide⟩, ?_, ?_⟩
  · have h := bytes_length_errors.1 [48] [97] ⟨by decide, by decide⟩ (by decide)
    simpa using h
  · have h := bytes_length_errors.2.1 [50] [97] ⟨by decide, by decide⟩ (by decide)
      (by decide) (by decide)
    simpa using h

/-- C8: for every input `<n>` `:` followed by at least `n` remaining
bytes, with declared length n ≥ 1 (and fitting in 64 unsigned bits, as any
length bounded by an actual buffer does), the byte-string decoder succeeds
and returns exactly the first n bytes after the colon as a `Bytes` value,
leaving all subsequent bytes unconsumed. -/
theorem bytes_exact_slice {L rest : Input} (hL : IsDigitRun L)
    (hbound : digitsVal L < u64Size) (h1 : 1 ≤ digitsVal L)
    (hlen : digitsVal L ≤ rest.length) :
    parse_bytes (L ++ 58 :: rest)
      = some (.ok (rest.drop (digitsVal L), .Bytes (rest.take (digitsVal L)))) := by
  have hd1 := digit1_run hL (by decide : isDigit 58 = false) rest
  have h128 := digitRun_all_lt_128 hL.2
  have hu := rustParseU64_run hL hbound
  have hne0 : digitsVal L ≠ 0 := by omega
  have htk : ptake (digitsVal L) rest
      = .ok (rest.drop (digitsVal L), rest.take (digitsVal L)) := by
    simp only [ptake]
    rw [if_neg (by omega)]
  simp [parse_bytes, hd1, pchar, h128, hu, hne0, htk]

/-- Witness for C8 at `"1:rock"`: yields `Bytes "r"` and leaves `"ock"`. -/
theorem bytes_exact_slice_witness :
    IsDigitRun [49] ∧ digitsVal [49] < u64Size ∧ 1 ≤ digitsVal [49] ∧
    digitsVal [49] ≤ ([114, 111, 99, 107] : Input).length ∧
    parse_bytes [49, 58, 114, 111, 99, 107]
      = some (.ok ([111, 99, 107], .Bytes [114])) := by
  refine ⟨⟨by decide, by decide⟩, by decide, by decide, by decide, ?_⟩
  have h := bytes_exact_slice (⟨by decide, by decide⟩ : IsDigitRun [49]) (by decide)
    (by decide) (by decide : digitsVal [49] ≤ ([114, 111, 99, 107] : Input).length)
  simpa [digitsVal] using h

theorem dictGet_absent {ps : List (Input × Value)} {k : Input}
    (h : ∀ q ∈ ps, q.1 ≠ k) : dictGet ps k = none := by
  induction ps with
  | nil => rfl
  | cons p rest ih =>
    obtain ⟨k1, v1⟩ := p
    have hr := ih (fun q hq => h q (by simp [hq]))
    have hp : k1 ≠ k := h (k1, v1) (by simp)
    simp [dictGet, hr, hp]

theorem dictGet_last {ps2 : List (Input × Value)} {k : Input} {v : Value}
    (h2 : ∀ q ∈ ps2, q.1 ≠ k) :
    ∀ ps1, dictGet (ps1 ++ (k, v) :: ps2) k = some v := by
  intro ps1
  induction ps1 with
  | nil =>
    have hr := dictGet_absent h2
    simp [dictGet, hr]
  | cons p rest ih =>
    obtain ⟨k1, v1⟩ := p
    simp [dictGet, ih]

/-- C9: when a dictionary body contains the same byte-string key more than
once, the decoder succeeds (the pairs relation allows duplicates) and the
decoded dictionary's lookup returns the value of the last occurrence of
that key; looking up a key absent from the decoded pairs yields none,
never a placeholder. -/
theorem dict_duplicate_last_wins :
    (∀ ps b, SpecEncodesPairs ps b →
      parse_dict (100 :: (b ++ [101])) = some (.ok ([], .Dictionary ps))) ∧
    (∀ (ps1 ps2 : List (Input × Value)) k v, (∀ q ∈ ps2, q.1 ≠ k) →
      dictGet (ps1 ++ (k, v) :: ps2) k = some v) ∧
    (∀ (ps : List (Input × Value)) k, (∀ q ∈ ps, q.1 ≠ k) →
      dictGet ps k = none) := by
  refine ⟨?_, fun ps1 ps2 k v h => dictGet_last h ps1, fun ps k h => dictGet_absent h⟩
  intro ps b h
  have hloop := (specEncodes_parse_aux b.length).2.2.1 ps b le_rfl h []
  simp [parse_dict_eq, pchar, hloop, toEntries_map]

/-- Witness for C9 at `"d1:ai1e1:ai2ee"`: the key `"a"` appears twice and
lookup returns Integer 2 (the later value); the absent key `"b"` yields
none. -/
theorem dict_duplicate_last_wins_witness :
    SpecEncodesPairs [([97], Value.Integer 1), ([97], Value.Integer 2)]
      [49, 58, 97, 105, 49, 101, 49, 58, 97, 105, 50, 101] ∧
    parse_dict [100, 49, 58, 97, 105, 49, 101, 49, 58, 97, 105, 50, 101, 101]
      = some (.ok ([],
          .Dictionary [([97], Value.Integer 1), ([97], Value.Integer 2)])) ∧
    dictGet [([97], Value.Integer 1), ([97], Value.Integer 2)] [97]
      = some (Value.Integer 2) ∧
    dictGet [([97], Value.Integer 1), ([97], Value.Integer 2)] [98] = none := by
  have hk : SpecEncodes (Value.Bytes [97]) [49, 58, 97] := by
    have h := SpecEncodes.bytes [49] [97] ⟨by decide, by decide⟩ (by decide) (by decide)
      (by decide)
    simpa using h
  have h1 : SpecEncodes (Value.Integer 1) [105, 49, 101] := by
    have h := SpecEncodes.int_nonneg [49] ⟨by decide, by decide, by decide⟩ (by decide)
    simpa [digitsVal] using h
  have h2 : SpecEncodes (Value.Integer 2) [105, 50, 101] := by
    have h := SpecEncodes.int_nonneg [50] ⟨by decide, by decide, by decide⟩ (by decide)
    simpa [digitsVal] using h
  have hp : SpecEncodesPairs [([97], Value.Integer 1), ([97], Value.Integer 2)]
      [49, 58, 97, 105, 49, 101, 49, 58, 97, 105, 50, 101] := by
    have hinner := SpecEncodesPairs.cons [97] (Value.Integer 2) [] _ _ _ hk h2
      SpecEncodesPairs.nil
    have houter := SpecEncodesPairs.cons [97] (Value.Integer 1) _ _ _ _ hk h1 hinner
    simpa using houter
  refine ⟨hp, ?_, ?_, ?_⟩
  · have h := dict_duplicate_last_wins.1 _ _ hp
    simpa using h
  · have h := dict_duplicate_last_wins.2.1 [([97], Value.Integer 1)] [] [97]
      (Value.Integer 2) (by simp)
    simpa using h
  · exact dict_duplicate_last_wins.2.2 _ [98] (by decide)

theorem parse_integer_failure_head {inp : Input} {e : BencodeError}
    (h : parse_integer inp = some (.error (.Failure e))) : ∃ t, inp = 105 :: t := by
  cases inp with
  | nil =>
    rw [parse_integer_nil] at h
    simp at h
  | cons c t =>
    by_cases hc : c = 105
    · exact ⟨t, by rw [hc]⟩
    · rw [parse_integer_err_head hc] at h
      simp at h

/-- C10: value dispatch is decided once by the next unconsumed byte: if
that byte is not an ASCII digit, `i`, `l`, or `d` — including the case of
no byte at all — the value alternation fails with a recoverable no-match
error; and once the integer decoder fails fatally (a content-level
Failure such as a canonical-form violation), the alternation returns
exactly that failure and never retries another value kind. -/
theorem dispatch_no_backtrack :
    (∀ c t, isDigit c = false → c ≠ 105 → c ≠ 108 → c ≠ 100 →
      parseValue (c :: t) = some (.error (.Error (.Nom (c :: t) .Char)))) ∧
    parseValue [] = some (.error (.Error (.Nom [] .Char))) ∧
    (∀ inp e, parse_integer inp = some (.error (.Failure e)) →
      parseValue inp = some (.error (.Failure e))) := by
  refine ⟨fun c t h1 h2 h3 h4 => parseValue_err_head h1 h2 h3 h4, parseValue_nil, ?_⟩
  intro inp e h
  obtain ⟨t, rfl⟩ := parse_integer_failure_head h
  simp [parseValue, parse_bytes_err_head (show isDigit 105 = false by decide), h]

/-- Witness for C10: the byte `x` matches no value kind, and the fatal
`InvalidInteger` failure on `"i00e"` surfaces unchanged from the
alternation. -/
theorem dispatch_no_backtrack_witness :
    (isDigit 120 = false ∧ (120 : Nat) ≠ 105 ∧ (120 : Nat) ≠ 108 ∧ (120 : Nat) ≠ 100) ∧
    parseValue [120] = some (.error (.Error (.Nom [120] .Char))) ∧
    parse_integer [105, 48, 48, 101]
      = some (.error (.Failure (.InvalidInteger [105, 48, 48, 101]))) ∧
    parseValue [105, 48, 48, 101]
      = some (.error (.Failure (.InvalidInteger [105, 48, 48, 101]))) := by
  refine ⟨⟨by decide, by decide, by decide, by decide⟩, ?_, rfl, ?_⟩
  · exact dispatch_no_backtrack.1 120 [] (by decide) (by decide) (by decide) (by decide)
  · exact dispatch_no_backtrack.2.2 [105, 48, 48, 101] _ rfl

/-- C1: every buffer that is a spec-well-formed concatenation of zero or
more top-level values decodes to exactly those values in encounter order
with the whole buffer consumed; the empty input yields Ok with the empty
sequence; and appending a trailing malformed or partial value after valid
values makes the whole call fail with an error, never partial results. -/
theorem parse_wellformed_concat :
    (∀ vs b, SpecEncodesSeq vs b → parse b = some (.ok vs)) ∧
    parse [] = some (.ok []) ∧
    (∀ vs b r, SpecEncodesSeq vs b → r ≠ [] →
      (∃ e, parseValue r = some (.error e)) →
      ∃ e2, parse (b ++ r) = some (.error e2)) := by
  refine ⟨fun vs b h => specEncodesSeq_parse h, ?_, ?_⟩
  · simpa using specEncodesSeq_parse SpecEncodesSeq.nil
  · rintro vs b r h hr ⟨e, he⟩
    exact specEncodesSeq_parse_err h hr he

/-- Witness for C1 at `"i3e1:a"` (two top-level values) and the same
buffer followed by the partial value `"i"`. -/
theorem parse_wellformed_concat_witness :
    SpecEncodesSeq [Value.Integer 3, Value.Bytes [97]] [105, 51, 101, 49, 58, 97] ∧
    parse [105, 51, 101, 49, 58, 97]
      = some (.ok [Value.Integer 3, Value.Bytes [97]]) ∧
    (∃ e2, parse ([105, 51, 101, 49, 58, 97] ++ [105]) = some (.error e2)) := by
  have hint : SpecEncodes (Value.Integer 3) [105, 51, 101] := by
    have h := SpecEncodes.int_nonneg [51] ⟨by decide, by decide, by decide⟩ (by decide)
    simpa [digitsVal] using h
  have hbyt : SpecEncodes (Value.Bytes [97]) [49, 58, 97] := by
    have h := SpecEncodes.bytes [49] [97] ⟨by decide, by decide⟩ (by decide) (by decide)
      (by decide)
    simpa using h
  have hseq : SpecEncodesSeq [Value.Integer 3, Value.Bytes [97]]
      [105, 51, 101, 49, 58, 97] := by
    have h := SpecEncodesSeq.cons _ _ _ _ hint
      (SpecEncodesSeq.cons _ _ _ _ hbyt SpecEncodesSeq.nil)
    simpa using h
  refine ⟨hseq, parse_wellformed_concat.1 _ _ hseq, ?_⟩
  refine parse_wellformed_concat.2.2 _ _ [105] hseq (by decide) ⟨.Error (.Nom [105] .Char), ?_⟩
  simp [parseValue, parse_bytes, parse_integer, parse_list_eq, parse_dict_eq, digit1,
    pchar, intBody, signedDigits, isDigit]
